import Mathlib

/-!
Shallow embedding of the transcript-deduplication pipeline of
`prototype/subtitle-service.js` (the functions `removeDuplicateText`,
`removePatternRepeats`, `removeSentenceRepeats`, `removeAdjacentDuplicates`
and `calculateSimilarity`).

Modelling conventions:
* JavaScript strings are modelled as `List Char`; string concatenation is
  list append, `===` on strings is list equality.
* The JS whitespace class is modelled by space, tab, newline and carriage
  return; `toLowerCase` is modelled by `Char.toLower` (all inputs considered
  are ASCII).
* JS numbers are modelled by `ℚ`.  The only similarity values the code ever
  produces are fractions `m / L` with `L ≤ 20`; for those, the IEEE-double
  comparisons against the literals `0.85` and `0.8` decide exactly as the
  rational comparisons against `17/20` and `4/5` (both boundary fractions are
  the rounded values of the literals themselves).  Inside the executable
  stage functions the two rational threshold tests are implemented by the
  equivalent cross-multiplied integer comparisons; the lemmas
  `blockSimilar_eq_ratTest` and `similarityExceeds_eq_ratTest` below prove
  them equal to the rational comparisons on the source's
  `calculateSimilarity` formula.
* The two JS `while` loops of `removePatternRepeats` take an explicit
  iteration bound (`fuel`); the callers pass `words.length`, which the
  strictly increasing cursors can never out-run.
-/

namespace SubtitleService

/-- A word token (a JS string). -/
abbrev Word := List Char

/-- The JS whitespace class `\s`, restricted to the characters occurring in
the inputs considered: space, tab, newline, carriage return. -/
def isWS (c : Char) : Bool := c = ' ' || c = '\t' || c = '\n' || c = '\r'

/-- The sentence-terminal character class `[.!?]`. -/
def isPunct (c : Char) : Bool := c = '.' || c = '!' || c = '?'

/-- Split a character list at every separator character, keeping the empty
pieces between consecutive separators (the primitive underlying the JS
regex splits; a JS split on `X+` is this split with the empty pieces
dropped, except at the two ends). -/
def splitP (p : Char → Bool) : List Char → List (List Char)
  | [] => [[]]
  | c :: cs =>
    match splitP p cs with
    | [] => [[c]]
    | w :: r => if p c then [] :: w :: r else (c :: w) :: r

/-- The JS `s.split(/\s+/).filter(word => word.length > 0)`: the maximal
non-whitespace runs of a string. -/
def wordsOfChars (cs : List Char) : List Word :=
  (splitP isWS cs).filter (fun w => !w.isEmpty)

/-- The JS `arr.join(' ')`. -/
def joinSp : List Word → List Char
  | [] => []
  | [w] => w
  | w :: ws => w ++ ' ' :: joinSp ws

/-- The JS `arr.join('. ')`. -/
def joinDotSp : List (List Char) → List Char
  | [] => []
  | [s] => s
  | s :: ss => s ++ '.' :: ' ' :: joinDotSp ss

/-- JS `toLowerCase` (ASCII). -/
def lowerStr (cs : List Char) : List Char := cs.map Char.toLower

/-- JS `trim` (over the modelled whitespace class). -/
def trimWS (cs : List Char) : List Char :=
  ((cs.dropWhile isWS).reverse.dropWhile isWS).reverse

/-- JS `s.split(/\s+/)` with no filtering: the maximal non-whitespace runs,
plus an empty leading (trailing) piece when the string starts (ends) with
whitespace, and `[""]` for the empty string. -/
def jsSplitWS (cs : List Char) : List Word :=
  match cs with
  | [] => [[]]
  | c :: _ =>
    (if isWS c then [([] : Word)] else [])
      ++ wordsOfChars cs
      ++ (if isWS (cs.getLastD 'a') then [([] : Word)] else [])

/-- The loop of `calculateSimilarity`: the number of positions `i` below the
shorter length where `words1[i] === words2[i]`. -/
def simMatches (words1 words2 : List Word) : Nat :=
  (List.range (min words1.length words2.length)).countP
    (fun i => words1.getD i [] == words2.getD i [])

/-- The body of `calculateSimilarity` after the two splits: `1` when both
lists are empty, otherwise `matches / maxLength`. -/
def calcSimWords (words1 words2 : List Word) : ℚ :=
  let maxLength := max words1.length words2.length
  if maxLength = 0 then 1 else (simMatches words1 words2 : ℚ) / (maxLength : ℚ)

/-- The source's `calculateSimilarity(str1, str2)`. -/
def calculateSimilarity (str1 str2 : List Char) : ℚ :=
  calcSimWords (jsSplitWS str1) (jsSplitWS str2)

/-- The loop of `removeAdjacentDuplicates` after its first iteration: each
word is pushed iff it differs case-insensitively from the immediately
preceding input word (`words[i - 1]`). -/
def adjacentKeep (prev : Word) : List Word → List Word
  | [] => []
  | w :: ws =>
    if lowerStr w = lowerStr prev then adjacentKeep w ws
    else w :: adjacentKeep w ws

/-- The full loop of `removeAdjacentDuplicates`: the word at index 0 is
always pushed. -/
def adjacentLoop : List Word → List Word
  | [] => []
  | w :: ws => w :: adjacentKeep w ws

/-- The source's `removeAdjacentDuplicates(text)`. -/
def removeAdjacentDuplicates (text : List Char) : List Char :=
  joinSp (adjacentLoop (wordsOfChars text))

/-- The test `this.calculateSimilarity(fingerprint, seenFingerprint) > 0.8`
of `removeSentenceRepeats`, as the exact cross-multiplied integer comparison
on the two split word lists (`jsSplitWS` never returns an empty list, so the
`maxLength == 0` branch of `calculateSimilarity` is unreachable here); the
lemma `similarityExceeds_eq_ratTest` proves this equal to the rational
comparison `0.8 < calculateSimilarity fingerprint seenFp`. -/
def similarityExceeds (fingerprint seenFp : List Char) : Bool :=
  let words1 := jsSplitWS fingerprint
  let words2 := jsSplitWS seenFp
  decide (4 * max words1.length words2.length < 5 * simMatches words1 words2)

/-- The `words` of one sentence in the `removeSentenceRepeats` loop:
`cleanSentence.split(/\s+/).filter(w => w.length > 2)` where
`cleanSentence = sentence.trim().toLowerCase()`. -/
def contentWordsOf (sentence : List Char) : List Word :=
  (jsSplitWS (lowerStr (trimWS sentence))).filter (fun w => 2 < w.length)

/-- The `fingerprint` of one sentence: `words.slice(0, 5).join(' ')`. -/
def fingerprintOf (sentence : List Char) : List Char :=
  joinSp ((contentWordsOf sentence).take 5)

/-- The `isDuplicate` check of the `removeSentenceRepeats` loop: some seen
fingerprint has similarity above `0.8` with the sentence's fingerprint. -/
def isDuplicateOf (sentence : List Char) (seenSentences : List (List Char)) : Bool :=
  seenSentences.any (fun seenFp => similarityExceeds (fingerprintOf sentence) seenFp)

/-- One iteration of the `removeSentenceRepeats` loop.  The state is the pair
of `uniqueSentences` and `seenSentences` (the JS `Set`, modelled as a list in
insertion order: every fingerprint that is added is new, because a fingerprint
equal to a seen one has similarity `1 > 0.8` and is rejected before insertion). -/
def sentenceStep (st : List (List Char) × List (List Char)) (sentence : List Char) :
    List (List Char) × List (List Char) :=
  if !(isDuplicateOf sentence st.2) && decide (3 ≤ (contentWordsOf sentence).length) then
    (st.1 ++ [trimWS sentence], st.2 ++ [fingerprintOf sentence])
  else st

/-- The sentence list of `removeSentenceRepeats`:
`text.split(/[.!?]+/).filter(s => s.trim().length > 0)`. -/
def sentencesOf (text : List Char) : List (List Char) :=
  (splitP isPunct text).filter (fun s => !(trimWS s).isEmpty)

/-- The source's `removeSentenceRepeats(text)`. -/
def removeSentenceRepeats (text : List Char) : List Char :=
  let sentences := sentencesOf text
  if sentences.length ≤ 1 then text
  else
    let uniqueSentences := (sentences.foldl sentenceStep ([], [])).1
    joinDotSp uniqueSentences ++ (if 0 < uniqueSentences.length then ['.'] else [])

/-- The JS `words.slice(i, i + L)`. -/
def sliceW (words : List Word) (i L : Nat) : List Word := (words.drop i).take L

/-- The inner `for j` loop of `removePatternRepeats`: the number of positions
`j < L` where `pattern[j] === nextSegment[j]`. -/
def blockMatches (pattern seg : List Word) (L : Nat) : Nat :=
  (List.range L).countP (fun j => pattern.getD j [] == seg.getD j [])

/-- The test `similarity >= 0.85` for one candidate block, with
`similarity = matches / patternLength`: the exact cross-multiplied integer
comparison (for the positive lengths the loop uses, equal to the rational
comparison on the source's formula — see `blockSimilar_eq_ratTest`). -/
def blockSimilar (pattern seg : List Word) (L : Nat) : Bool :=
  decide (17 * L ≤ 20 * blockMatches pattern seg L)

/-- The `while` loop counting consecutive repeating blocks.  Arguments after
`L` are `repeatCount`, `checkIndex` and the iteration bound. -/
def repeatScan (words pattern : List Word) (L : Nat) :
    Nat → Nat → Nat → Nat × Nat
  | repeatCount, checkIndex, 0 => (repeatCount, checkIndex)
  | repeatCount, checkIndex, fuel + 1 =>
    if decide (checkIndex + L ≤ words.length)
        && blockSimilar pattern (sliceW words checkIndex L) L then
      repeatScan words pattern L (repeatCount + 1) (checkIndex + L) fuel
    else (repeatCount, checkIndex)

/-- The body of the `for patternLength` loop for one candidate length `L` at
cursor `i`: `some (pattern, newCursor)` when a repeat (`repeatCount ≥ 2`) is
found, `none` otherwise (including the `continue` guard
`i + patternLength >= words.length`). -/
def tryPattern (words : List Word) (i L : Nat) : Option (List Word × Nat) :=
  if words.length ≤ i + L then none
  else
    let pattern := sliceW words i L
    let scan := repeatScan words pattern L 1 (i + L) words.length
    if 2 ≤ scan.1 then some (pattern, scan.2) else none

/-- The candidate pattern lengths `min(20, ⌊(words.length − i) / 2⌋), …, 2`,
longest first. -/
def candidateLengths (words : List Word) (i : Nat) : List Nat :=
  (List.range' 2 (min 20 ((words.length - i) / 2) - 1)).reverse

/-- The first (i.e. longest) candidate length producing a repeat at cursor
`i`, with its pattern and the cursor position past all matched repeats. -/
def findRepeat (words : List Word) (i : Nat) : Option (List Word × Nat) :=
  (candidateLengths words i).findSome? (tryPattern words i)

/-- The outer `while (i < words.length)` loop of `removePatternRepeats`. -/
def patternLoop (words : List Word) : Nat → Nat → List Word
  | _, 0 => []
  | i, fuel + 1 =>
    if i < words.length then
      match findRepeat words i with
      | some (pattern, checkIndex) => pattern ++ patternLoop words checkIndex fuel
      | none => words.getD i [] :: patternLoop words (i + 1) fuel
    else []

/-- The source's `removePatternRepeats(text)`. -/
def removePatternRepeats (text : List Char) : List Char :=
  let words := wordsOfChars text
  if words.length < 4 then text
  else joinSp (patternLoop words 0 words.length)

/-- The JS `text.replace(/\s+/g, ' ').trim()` (as used by `removeDuplicateText`):
collapse whitespace runs and trim. -/
def normalizeWS (cs : List Char) : List Char := joinSp (wordsOfChars cs)

/-- The three cleaning stages of `removeDuplicateText`, in their order:
pattern repeats, then sentence repeats, then adjacent duplicates. -/
def pipeline (text : List Char) : List Char :=
  removeAdjacentDuplicates (removeSentenceRepeats (removePatternRepeats text))

/-- The source's `removeDuplicateText(textLines)`. -/
def removeDuplicateText (textLines : List (List Char)) : List Char :=
  if textLines.isEmpty then []
  else
    let fullText := normalizeWS (joinSp textLines)
    if fullText.isEmpty then []
    else pipeline (normalizeWS fullText)

/-- The token count of a text: the number of whitespace-separated words. -/
def tokenCount (cs : List Char) : Nat := (wordsOfChars cs).length

/-- The spec's description of the Adjacent Duplicate Collapser, for comparison
with the code (claim C7): a token is dropped iff it is case-insensitively
equal to the immediately preceding retained token. -/
def collapseKeepLast (lastRetained : Word) : List Word → List Word
  | [] => []
  | w :: ws =>
    if lowerStr w = lowerStr lastRetained then collapseKeepLast lastRetained ws
    else w :: collapseKeepLast w ws

/-- The spec's collapser on a whole stream: the first token is always
retained, and each later token is compared with the last retained one. -/
def collapseRetainedSpec : List Word → List Word
  | [] => []
  | w :: ws => w :: collapseKeepLast w ws

/-! ## Basic lemmas about the splitting primitives -/

/-- The splitter `splitP` never returns the empty list of pieces. -/
theorem splitP_ne_nil (p : Char → Bool) (cs : List Char) : splitP p cs ≠ [] := by
  cases cs with
  | nil => simp [splitP]
  | cons c cs =>
    simp only [splitP]
    rcases h : splitP p cs with _ | ⟨w, r⟩
    · simp
    · by_cases hc : p c <;> simp [hc]

/-- The JS whitespace split always returns at least one piece. -/
theorem jsSplitWS_ne_nil (cs : List Char) : jsSplitWS cs ≠ [] := by
  cases cs with
  | nil => simp [jsSplitWS]
  | cons c cs =>
    simp only [jsSplitWS]
    by_cases hc : isWS c
    · simp [hc]
    · intro h
      rcases List.append_eq_nil.1 h with ⟨h1, h2⟩
      rcases List.append_eq_nil.1 h1 with ⟨-, h3⟩
      revert h3
      unfold wordsOfChars
      simp only [splitP]
      rcases hs : splitP isWS cs with _ | ⟨w, r⟩
      · exact absurd hs (splitP_ne_nil isWS cs)
      · simp [hc]

/-! ## The integer threshold tests equal the rational ones -/

/-- The cross-multiplied pattern-block test is exactly the source's
`matches / patternLength >= 0.85` on rationals, for positive lengths. -/
theorem blockSimilar_eq_ratTest (pattern seg : List Word) (L : Nat) (hL : 0 < L) :
    blockSimilar pattern seg L
      = decide ((17 : ℚ)/20 ≤ (blockMatches pattern seg L : ℚ) / (L : ℚ)) := by
  have hLq : (0 : ℚ) < (L : ℚ) := by exact_mod_cast hL
  have : ((17 : ℚ)/20 ≤ (blockMatches pattern seg L : ℚ) / (L : ℚ))
      ↔ (17 * L ≤ 20 * blockMatches pattern seg L) := by
    rw [div_le_div_iff₀ (by norm_num) hLq]
    constructor
    · intro h
      have h' : (17 : ℚ) * L ≤ 20 * (blockMatches pattern seg L : ℚ) := by linarith
      exact_mod_cast h'
    · intro h
      have h' : (17 : ℚ) * L ≤ 20 * (blockMatches pattern seg L : ℚ) := by exact_mod_cast h
      linarith
  simp [blockSimilar, this]

/-- The cross-multiplied fingerprint test is exactly the source's
`calculateSimilarity(fingerprint, seenFingerprint) > 0.8` on rationals. -/
theorem similarityExceeds_eq_ratTest (fp seenFp : List Char) :
    similarityExceeds fp seenFp
      = decide ((4 : ℚ)/5 < calculateSimilarity fp seenFp) := by
  have h1 : jsSplitWS fp ≠ [] := jsSplitWS_ne_nil fp
  have h2 : jsSplitWS seenFp ≠ [] := jsSplitWS_ne_nil seenFp
  have hpos : 0 < max (jsSplitWS fp).length (jsSplitWS seenFp).length := by
    have := List.length_pos.2 h1
    omega
  unfold similarityExceeds calculateSimilarity calcSimWords
  have hne : ¬ (max (jsSplitWS fp).length (jsSplitWS seenFp).length = 0) := by omega
  have hq : (0 : ℚ) < (max (jsSplitWS fp).length (jsSplitWS seenFp).length : ℚ) := by
    exact_mod_cast hpos
  simp only [hne, if_false]
  have : ((4 : ℚ)/5 < (simMatches (jsSplitWS fp) (jsSplitWS seenFp) : ℚ)
        / (max (jsSplitWS fp).length (jsSplitWS seenFp).length : ℚ))
      ↔ (4 * max (jsSplitWS fp).length (jsSplitWS seenFp).length
        < 5 * simMatches (jsSplitWS fp) (jsSplitWS seenFp)) := by
    rw [div_lt_div_iff₀ (by norm_num) hq]
    constructor
    · intro h
      have h' : (4 : ℚ) * (max (jsSplitWS fp).length (jsSplitWS seenFp).length : ℚ)
          < 5 * (simMatches (jsSplitWS fp) (jsSplitWS seenFp) : ℚ) := by linarith
      exact_mod_cast h'
    · intro h
      have h' : (4 : ℚ) * (max (jsSplitWS fp).length (jsSplitWS seenFp).length : ℚ)
          < 5 * (simMatches (jsSplitWS fp) (jsSplitWS seenFp) : ℚ) := by exact_mod_cast h
      linarith
  simp [this]

/-! ## The similarity scorer on token sequences -/

/-- The positional match count equals a count over the zipped sequences. -/
theorem simMatches_eq_zip (a b : List Word) :
    simMatches a b = (a.zip b).countP (fun p => p.1 == p.2) := by
  induction a generalizing b with
  | nil => simp [simMatches]
  | cons x xs ih =>
    cases b with
    | nil => simp [simMatches]
    | cons y ys =>
      unfold simMatches
      have hmin : min (x :: xs).length (y :: ys).length
          = min xs.length ys.length + 1 := by
        simp [Nat.succ_min_succ]
      rw [hmin, List.range_succ_eq_map, List.countP_cons, List.countP_map]
      have hcomp : ((fun i => (x :: xs).getD i [] == (y :: ys).getD i []) ∘ Nat.succ)
          = (fun i => xs.getD i [] == ys.getD i []) := by
        funext i
        simp
      rw [hcomp]
      have hih := ih ys
      unfold simMatches at hih
      rw [hih, List.zip_cons_cons, List.countP_cons]
      simp

/-! ## The adjacent-duplicate collapser matches the spec's description -/

/-- The code's loop (which compares with the preceding input word) agrees
with the spec's loop (which compares with the last retained word), whenever
the two reference words agree modulo case — case-insensitive equality is
transitive, so a dropped word leaves the comparison class unchanged. -/
theorem adjacentKeep_eq_collapseKeepLast (prev lastR : Word) (ws : List Word)
    (h : lowerStr prev = lowerStr lastR) :
    adjacentKeep prev ws = collapseKeepLast lastR ws := by
  induction ws generalizing prev lastR with
  | nil => rfl
  | cons w ws ih =>
    by_cases hw : lowerStr w = lowerStr prev
    · have hw' : lowerStr w = lowerStr lastR := hw.trans h
      rw [adjacentKeep, collapseKeepLast, if_pos hw, if_pos hw']
      exact ih w lastR hw'
    · have hw' : ¬ lowerStr w = lowerStr lastR := fun hc => hw (hc.trans h.symm)
      rw [adjacentKeep, collapseKeepLast, if_neg hw, if_neg hw']
      rw [ih w w rfl]

/-! ## Claim theorems -/

/-- C5 (confirmed): on the spec's triple-repeat example the full pipeline
collapses the three copies and keeps the trailing sentence. -/
theorem claim_C5_triple_repeat_collapse :
    pipeline ("the market is up today. the market is up today. the market is up today. volatility remains high." : String).data
      = ("the market is up today. volatility remains high." : String).data
    ∧ removeDuplicateText [("the market is up today. the market is up today. the market is up today. volatility remains high." : String).data]
      = ("the market is up today. volatility remains high." : String).data := by
  exact ⟨by decide, by decide⟩

/-- C1 (counterexample): the pipeline is not idempotent.  In the input below
the middle sentence "zz qq" has no content words and is dropped by the
sentence stage, which makes the two outer near-duplicate sentences adjacent;
only the second pipeline run's pattern stage can then merge them. -/
theorem claim_C1_counterexample :
    pipeline (pipeline ("aaa bbb ccc ddd xxx eee fff. zz qq. aaa bbb ccc ddd yyy eee fff." : String).data)
      ≠ pipeline ("aaa bbb ccc ddd xxx eee fff. zz qq. aaa bbb ccc ddd yyy eee fff." : String).data := by
  decide

/-- C1 (amended): the two runs on the document above, evaluated: the first
run keeps two near-duplicate sentences, the second run collapses them. -/
theorem claim_C1_second_run_collapses_more :
    pipeline ("aaa bbb ccc ddd xxx eee fff. zz qq. aaa bbb ccc ddd yyy eee fff." : String).data
      = ("aaa bbb ccc ddd xxx eee fff. aaa bbb ccc ddd yyy eee fff." : String).data
    ∧ pipeline (pipeline ("aaa bbb ccc ddd xxx eee fff. zz qq. aaa bbb ccc ddd yyy eee fff." : String).data)
      = ("aaa bbb ccc ddd xxx eee fff." : String).data := by
  exact ⟨by decide, by decide⟩

/-- C3 (counterexample): on the spec's example pair the positional overlap of
the fingerprints is exactly `0.8`, the code's test is strict (`> 0.8`), so
the second sentence is kept, not dropped. -/
theorem claim_C3_counterexample :
    removeSentenceRepeats ("revenue grew sharply this quarter. revenue grew sharply last quarter." : String).data
      = ("revenue grew sharply this quarter. revenue grew sharply last quarter." : String).data
    ∧ ("revenue grew sharply this quarter. revenue grew sharply last quarter." : String).data
      ≠ ("revenue grew sharply this quarter." : String).data := by
  exact ⟨by decide, by decide⟩

/-- C3 (amended): a later sentence is dropped when its fingerprint overlap
with some previously kept fingerprint strictly exceeds `0.8`; at exactly
`0.8` (the spec's example pair) the sentence is kept. -/
theorem claim_C3_strict_threshold :
    (∀ (st : List (List Char) × List (List Char)) (sentence : List Char),
        (∃ fp ∈ st.2, (4 : ℚ)/5 < calculateSimilarity (fingerprintOf sentence) fp) →
        sentenceStep st sentence = st)
    ∧ removeSentenceRepeats ("revenue grew sharply this quarter. revenue grew sharply last quarter." : String).data
      = ("revenue grew sharply this quarter. revenue grew sharply last quarter." : String).data := by
  constructor
  · rintro st sentence ⟨fp, hmem, hgt⟩
    have hdup : isDuplicateOf sentence st.2 = true := by
      unfold isDuplicateOf
      rw [List.any_eq_true]
      exact ⟨fp, hmem, by rw [similarityExceeds_eq_ratTest]; exact decide_eq_true hgt⟩
    unfold sentenceStep
    rw [hdup]
    simp
  · decide

/-- Witness for the amended C3: a sentence whose fingerprint is identical to
a seen fingerprint (overlap `1 > 0.8`) leaves the state unchanged. -/
theorem claim_C3_strict_threshold_witness :
    sentenceStep ([], [("aaa bbb ccc" : String).data]) ("aaa bbb ccc" : String).data
      = ([], [("aaa bbb ccc" : String).data]) := by
  apply claim_C3_strict_threshold.1
  refine ⟨("aaa bbb ccc" : String).data, by simp, ?_⟩
  have h1 : simMatches (jsSplitWS (fingerprintOf ("aaa bbb ccc" : String).data))
      (jsSplitWS ("aaa bbb ccc" : String).data) = 3 := by decide
  have h2 : (jsSplitWS (fingerprintOf ("aaa bbb ccc" : String).data)).length = 3 := by decide
  have h3 : (jsSplitWS ("aaa bbb ccc" : String).data).length = 3 := by decide
  unfold calculateSimilarity calcSimWords
  rw [h1, h2, h3]
  norm_num

/-- C2 (counterexample): the code drops a sentence whose full positional
overlap with the kept sentence is only `5/7 < 0.8`, because the two
fingerprints coincide — the drop/keep decision reads only the fingerprints,
and the complete sentences are never compared. -/
theorem claim_C2_counterexample :
    removeSentenceRepeats ("aaa bbb ccc ddd eee fff. aaa bbb ccc ddd eee ggg hhh." : String).data
      = ("aaa bbb ccc ddd eee fff." : String).data
    ∧ calculateSimilarity ("aaa bbb ccc ddd eee fff" : String).data
        ("aaa bbb ccc ddd eee ggg hhh" : String).data < (4 : ℚ)/5 := by
  constructor
  · decide
  · have h1 : simMatches (jsSplitWS ("aaa bbb ccc ddd eee fff" : String).data)
        (jsSplitWS ("aaa bbb ccc ddd eee ggg hhh" : String).data) = 5 := by decide
    have h2 : (jsSplitWS ("aaa bbb ccc ddd eee fff" : String).data).length = 6 := by decide
    have h3 : (jsSplitWS ("aaa bbb ccc ddd eee ggg hhh" : String).data).length = 7 := by decide
    unfold calculateSimilarity calcSimWords
    rw [h1, h2, h3]
    norm_num

/-- C2 (amended): the fingerprint is the entire input of the duplicate
decision: the decision is the `> 0.8` overlap test between fingerprints, and
two sentences with equal fingerprints always receive the same verdict,
whatever their full text. -/
theorem claim_C2_fingerprint_is_authoritative :
    (∀ (sentence : List Char) (seen : List (List Char)),
        isDuplicateOf sentence seen
          = seen.any (fun seenFp =>
              decide ((4 : ℚ)/5 < calculateSimilarity (fingerprintOf sentence) seenFp)))
    ∧ (∀ (s₁ s₂ : List Char) (seen : List (List Char)),
        fingerprintOf s₁ = fingerprintOf s₂ →
        isDuplicateOf s₁ seen = isDuplicateOf s₂ seen) := by
  constructor
  · intro sentence seen
    unfold isDuplicateOf
    congr 1
    funext seenFp
    exact similarityExceeds_eq_ratTest _ _
  · intro s₁ s₂ seen h
    unfold isDuplicateOf
    rw [h]

/-- Witness for the amended C2: the two sentences of the C2 counterexample
have equal fingerprints, hence equal verdicts against any seen set. -/
theorem claim_C2_fingerprint_is_authoritative_witness :
    isDuplicateOf ("aaa bbb ccc ddd eee fff" : String).data
        [("aaa bbb ccc ddd eee" : String).data]
      = isDuplicateOf ("aaa bbb ccc ddd eee ggg hhh" : String).data
        [("aaa bbb ccc ddd eee" : String).data] :=
  claim_C2_fingerprint_is_authoritative.2 _ _ _ (by decide)

/-- C4 (counterexample): the sentence stage can grow both the token count and
the character length: splitting at a `!` inside the token `ccc!ddd` and
re-joining with `". "` turns 5 tokens / 24 characters into 6 tokens / 25
characters. -/
theorem claim_C4_counterexample :
    ¬ (tokenCount (removeSentenceRepeats ("aaa bbb ccc!ddd eee fff!" : String).data)
        ≤ tokenCount ("aaa bbb ccc!ddd eee fff!" : String).data)
    ∧ ¬ ((removeSentenceRepeats ("aaa bbb ccc!ddd eee fff!" : String).data).length
        ≤ ("aaa bbb ccc!ddd eee fff!" : String).data.length) := by
  exact ⟨by decide, by decide⟩

/-- C7 (confirmed): the collapser retains the first token and drops a token
iff it matches the last retained token case-insensitively (the code compares
with the preceding input token, which is equivalent because case-insensitive
equality is transitive); the spec's example evaluates as stated. -/
theorem claim_C7_adjacent_collapser :
    (∀ ws : List Word, adjacentLoop ws = collapseRetainedSpec ws)
    ∧ adjacentLoop
        [("the" : String).data, ("The" : String).data, ("cat" : String).data, ("sat" : String).data]
      = [("the" : String).data, ("cat" : String).data, ("sat" : String).data]
    ∧ removeAdjacentDuplicates ("the The cat sat" : String).data
      = ("the cat sat" : String).data := by
  refine ⟨?_, by decide, by decide⟩
  intro ws
  cases ws with
  | nil => rfl
  | cons w ws =>
    rw [adjacentLoop, collapseRetainedSpec]
    rw [adjacentKeep_eq_collapseKeepLast w w ws rfl]

/-- C8 (confirmed): the similarity scorer returns `matches / max(len a, len b)`
with `matches` the number of positions (within the shorter sequence) holding
equal tokens, and returns `1` on two empty sequences. -/
theorem claim_C8_similarity_scorer :
    (∀ a b : List Word, max a.length b.length ≠ 0 →
        calcSimWords a b
          = (((a.zip b).countP (fun p => p.1 == p.2) : ℚ)) / (max a.length b.length : ℚ))
    ∧ calcSimWords [] [] = 1 := by
  constructor
  · intro a b h
    unfold calcSimWords
    rw [if_neg h, simMatches_eq_zip, Nat.cast_max]
  · rfl

/-- Witness for C8 at a concrete pair of sequences of lengths 1 and 0. -/
theorem claim_C8_similarity_scorer_witness :
    calcSimWords [(['x'] : Word)] []
      = ((([(['x'] : Word)].zip ([] : List Word)).countP (fun p => p.1 == p.2) : ℚ))
        / (max [(['x'] : Word)].length ([] : List Word).length : ℚ) :=
  claim_C8_similarity_scorer.1 _ _ (by decide)

/-! ## Characters of split pieces -/

/-- Every character of a piece produced by `splitP` fails the separator
predicate. -/
theorem mem_splitP_not (p : Char → Bool) :
    ∀ (cs : List Char) (w : List Char), w ∈ splitP p cs → ∀ c ∈ w, p c = false := by
  intro cs
  induction cs with
  | nil =>
    intro w hw c hc
    simp [splitP] at hw
    subst hw
    cases hc
  | cons a cs ih =>
    intro w hw c hc
    rcases hs : splitP p cs with _ | ⟨w0, r⟩
    · exact absurd hs (splitP_ne_nil p cs)
    · simp only [splitP, hs] at hw
      by_cases hp : p a
      · rw [if_pos hp] at hw
        rcases List.mem_cons.1 hw with h | h
        · subst h; cases hc
        · exact ih w (by rw [hs]; exact h) c hc
      · rw [if_neg hp] at hw
        rcases List.mem_cons.1 hw with h | h
        · subst h
          rcases List.mem_cons.1 hc with h | h
          · subst h
            exact Bool.not_eq_true _ ▸ (by simpa using hp)
          · exact ih w0 (by rw [hs]; exact List.mem_cons_self _ _) c h
        · exact ih w (by rw [hs]; exact List.mem_cons_of_mem _ h) c hc

/-- Every character of a piece produced by `splitP` is a character of the
split string. -/
theorem mem_splitP_subset (p : Char → Bool) :
    ∀ (cs : List Char) (w : List Char), w ∈ splitP p cs → ∀ c ∈ w, c ∈ cs := by
  intro cs
  induction cs with
  | nil =>
    intro w hw c hc
    simp [splitP] at hw
    subst hw
    cases hc
  | cons a cs ih =>
    intro w hw c hc
    rcases hs : splitP p cs with _ | ⟨w0, r⟩
    · exact absurd hs (splitP_ne_nil p cs)
    · simp only [splitP, hs] at hw
      by_cases hp : p a
      · rw [if_pos hp] at hw
        rcases List.mem_cons.1 hw with h | h
        · subst h; cases hc
        · exact List.mem_cons_of_mem _ (ih w (by rw [hs]; exact h) c hc)
      · rw [if_neg hp] at hw
        rcases List.mem_cons.1 hw with h | h
        · subst h
          rcases List.mem_cons.1 hc with h | h
          · subst h; exact List.mem_cons_self _ _
          · exact List.mem_cons_of_mem _
              (ih w0 (by rw [hs]; exact List.mem_cons_self _ _) c h)
        · exact List.mem_cons_of_mem _ (ih w (by rw [hs]; exact List.mem_cons_of_mem _ h) c hc)

/-- A string of pure whitespace has no words. -/
theorem wordsOfChars_eq_nil_of_ws (cs : List Char) (h : ∀ c ∈ cs, isWS c = true) :
    wordsOfChars cs = [] := by
  unfold wordsOfChars
  rw [List.filter_eq_nil_iff]
  intro w hw
  cases w with
  | nil => simp
  | cons c w' =>
    have h1 := mem_splitP_not isWS cs _ hw c (List.mem_cons_self _ _)
    have h2 := h c (mem_splitP_subset isWS cs _ hw c (List.mem_cons_self _ _))
    rw [h1] at h2
    cases h2

/-- Trimming a string of pure whitespace yields the empty string. -/
theorem trimWS_eq_nil_of_ws (cs : List Char) (h : ∀ c ∈ cs, isWS c = true) :
    trimWS cs = [] := by
  unfold trimWS
  have h1 : cs.dropWhile isWS = [] := by
    rw [List.dropWhile_eq_nil_iff]
    exact fun c hc => h c hc
  rw [h1]
  rfl

/-- A string of pure whitespace has no (trim-nonempty) sentences. -/
theorem sentencesOf_eq_nil_of_ws (cs : List Char) (h : ∀ c ∈ cs, isWS c = true) :
    sentencesOf cs = [] := by
  unfold sentencesOf
  rw [List.filter_eq_nil_iff]
  intro s hs
  have : trimWS s = [] :=
    trimWS_eq_nil_of_ws s (fun c hc => h c (mem_splitP_subset isPunct cs s hs c hc))
  simp [this]

/-- C9 (counterexample): a whitespace-only input is NOT propagated as an
empty result by the pattern stage — it is returned unchanged. -/
theorem claim_C9_counterexample :
    removePatternRepeats (" " : String).data = (" " : String).data
    ∧ (" " : String).data ≠ ([] : List Char) := by
  exact ⟨by decide, by decide⟩

/-- C9 (amended): the empty input yields the empty result at every stage and
for the pipeline; a whitespace-only input passes through the pattern and
sentence stages unchanged (still whitespace-only, not empty), is collapsed
to empty by the adjacent stage, and hence the pipeline maps it to empty.
All stage functions are total, so no input raises an error. -/
theorem claim_C9_empty_or_whitespace :
    (removePatternRepeats [] = [] ∧ removeSentenceRepeats [] = []
      ∧ removeAdjacentDuplicates [] = [] ∧ pipeline [] = [])
    ∧ (∀ cs : List Char, (∀ c ∈ cs, isWS c = true) →
        removePatternRepeats cs = cs ∧ removeSentenceRepeats cs = cs
          ∧ removeAdjacentDuplicates cs = [] ∧ pipeline cs = []) := by
  constructor
  · exact ⟨rfl, rfl, rfl, rfl⟩
  · intro cs h
    have hw : wordsOfChars cs = [] := wordsOfChars_eq_nil_of_ws cs h
    have hs : sentencesOf cs = [] := sentencesOf_eq_nil_of_ws cs h
    have h1 : removePatternRepeats cs = cs := by
      unfold removePatternRepeats
      rw [hw]
      simp
    have h2 : removeSentenceRepeats cs = cs := by
      unfold removeSentenceRepeats
      rw [hs]
      simp
    have h3 : removeAdjacentDuplicates cs = [] := by
      unfold removeAdjacentDuplicates
      rw [hw]
      rfl
    refine ⟨h1, h2, h3, ?_⟩
    unfold pipeline
    rw [h1, h2, h3]

/-- Witness for the amended C9 at a concrete whitespace-only input. -/
theorem claim_C9_empty_or_whitespace_witness :
    removePatternRepeats ("  " : String).data = ("  " : String).data
    ∧ removeSentenceRepeats ("  " : String).data = ("  " : String).data
    ∧ removeAdjacentDuplicates ("  " : String).data = []
    ∧ pipeline ("  " : String).data = [] :=
  claim_C9_empty_or_whitespace.2 _ (by decide)

/-! ## C10: sentence-stage output punctuation -/

/-- Every character of a `joinDotSp`-joined list is a period, a space, or a
character of one of the joined pieces. -/
theorem mem_joinDotSp (ws : List (List Char)) (c : Char) (h : c ∈ joinDotSp ws) :
    c = '.' ∨ c = ' ' ∨ ∃ w ∈ ws, c ∈ w := by
  induction ws with
  | nil => cases h
  | cons s ss ih =>
    cases ss with
    | nil =>
      right; right
      exact ⟨s, List.mem_cons_self _ _, h⟩
    | cons s2 ss2 =>
      have hunf : joinDotSp (s :: s2 :: ss2) = s ++ '.' :: ' ' :: joinDotSp (s2 :: ss2) := rfl
      rw [hunf] at h
      rcases List.mem_append.1 h with h | h
      · right; right; exact ⟨s, List.mem_cons_self _ _, h⟩
      · rcases List.mem_cons.1 h with h | h
        · exact Or.inl h
        · rcases List.mem_cons.1 h with h | h
          · exact Or.inr (Or.inl h)
          · rcases ih h with h | h | ⟨w, hw, hcw⟩
            · exact Or.inl h
            · exact Or.inr (Or.inl h)
            · exact Or.inr (Or.inr ⟨w, List.mem_cons_of_mem _ hw, hcw⟩)

/-- Characters survive trimming only if they were in the string. -/
theorem mem_of_mem_trimWS (cs : List Char) (c : Char) (h : c ∈ trimWS cs) : c ∈ cs := by
  unfold trimWS at h
  rw [List.mem_reverse] at h
  have h2 := (List.dropWhile_sublist _).subset h
  rw [List.mem_reverse] at h2
  exact (List.dropWhile_sublist _).subset h2

/-- Every sentence kept by the `removeSentenceRepeats` loop is the trimmed
form of one of the processed sentences. -/
theorem mem_foldl_sentenceStep :
    ∀ (sentences : List (List Char)) (st : List (List Char) × List (List Char))
      (w : List Char), w ∈ (sentences.foldl sentenceStep st).1 →
      w ∈ st.1 ∨ ∃ s ∈ sentences, w = trimWS s := by
  intro sentences
  induction sentences with
  | nil =>
    intro st w h
    exact Or.inl h
  | cons s ss ih =>
    intro st w h
    rw [List.foldl_cons] at h
    rcases ih (sentenceStep st s) w h with h1 | ⟨s', hs', rfl⟩
    · unfold sentenceStep at h1
      split at h1
      · rcases List.mem_append.1 h1 with h2 | h2
        · exact Or.inl h2
        · right
          exact ⟨s, List.mem_cons_self _ _, (List.mem_singleton.1 h2)⟩
      · exact Or.inl h1
    · right
      exact ⟨s', List.mem_cons_of_mem _ hs', rfl⟩

/-- C10 (confirmed): with at least two non-empty sentence fragments, the
stage rejoins the kept sentences with `". "` plus one trailing `"."` when any
survive, and no `'!'` or `'?'` can occur in its output. -/
theorem claim_C10_rejoin_replaces_punctuation :
    ∀ text : List Char, 2 ≤ (sentencesOf text).length →
      (removeSentenceRepeats text
        = joinDotSp ((sentencesOf text).foldl sentenceStep ([], [])).1
          ++ (if 0 < ((sentencesOf text).foldl sentenceStep ([], [])).1.length
              then ['.'] else []))
      ∧ '!' ∉ removeSentenceRepeats text
      ∧ '?' ∉ removeSentenceRepeats text := by
  intro text h2
  have hne : ¬ (sentencesOf text).length ≤ 1 := by omega
  have heq : removeSentenceRepeats text
      = joinDotSp ((sentencesOf text).foldl sentenceStep ([], [])).1
        ++ (if 0 < ((sentencesOf text).foldl sentenceStep ([], [])).1.length
            then ['.'] else []) := by
    unfold removeSentenceRepeats
    rw [if_neg hne]
  have key : ∀ c : Char, isPunct c = true → c ≠ '.' → c ≠ ' ' →
      c ∉ removeSentenceRepeats text := by
    intro c hpunct hdot hsp hc
    rw [heq] at hc
    rcases List.mem_append.1 hc with hc | hc
    · rcases mem_joinDotSp _ _ hc with h | h | ⟨w, hw, hcw⟩
      · exact hdot h
      · exact hsp h
      · rcases mem_foldl_sentenceStep _ _ _ hw with h | ⟨s, hs, rfl⟩
        · cases h
        · have hcs : c ∈ s := mem_of_mem_trimWS s c hcw
          have hmem : s ∈ splitP isPunct text := (List.mem_filter.1 hs).1
          have : isPunct c = false := mem_splitP_not isPunct text s hmem c hcs
          rw [hpunct] at this
          cases this
    · split at hc
      · exact hdot (List.mem_singleton.1 hc)
      · cases hc
  exact ⟨heq, key '!' (by decide) (by decide) (by decide),
    key '?' (by decide) (by decide) (by decide)⟩

/-- Witness for C10 at a concrete two-sentence input containing `!` and `?`. -/
theorem claim_C10_rejoin_replaces_punctuation_witness :
    2 ≤ (sentencesOf ("aaa bbb ccc! ddd eee fff?" : String).data).length
    ∧ '!' ∉ removeSentenceRepeats ("aaa bbb ccc! ddd eee fff?" : String).data
    ∧ '?' ∉ removeSentenceRepeats ("aaa bbb ccc! ddd eee fff?" : String).data :=
  ⟨by decide,
   (claim_C10_rejoin_replaces_punctuation _ (by decide)).2.1,
   (claim_C10_rejoin_replaces_punctuation _ (by decide)).2.2⟩

/-! ## Length accounting for join and split -/

/-- Sums of natural lists are monotone under sublists. -/
theorem sublist_sum_le (l₁ l₂ : List Nat) (h : List.Sublist l₁ l₂) : l₁.sum ≤ l₂.sum := by
  induction h with
  | slnil => exact le_refl _
  | cons a _ ih =>
    rw [List.sum_cons]
    omega
  | cons₂ a _ ih =>
    rw [List.sum_cons, List.sum_cons]
    omega

/-- Length of a space-join: total word length plus one separator per gap. -/
theorem joinSp_length : ∀ ws : List Word, ws ≠ [] →
    (joinSp ws).length + 1 = (ws.map List.length).sum + ws.length := by
  intro ws
  induction ws with
  | nil => intro h; cases h rfl
  | cons w ws ih =>
    intro _
    cases ws with
    | nil => simp [joinSp]
    | cons w2 ws2 =>
      have hunf : joinSp (w :: w2 :: ws2) = w ++ ' ' :: joinSp (w2 :: ws2) := rfl
      have hih := ih (by simp)
      rw [hunf]
      simp only [List.length_append, List.length_cons, List.map_cons, List.sum_cons] at hih ⊢
      omega

/-- The space-join is length-monotone under sublists of the word list. -/
theorem joinSp_length_le_of_sublist (ws' ws : List Word) (h : List.Sublist ws' ws) :
    (joinSp ws').length ≤ (joinSp ws).length := by
  cases hward : ws' with
  | nil => simp [joinSp]
  | cons w ws'' =>
    subst hward
    have hne : ws ≠ [] := by
      intro he
      subst he
      have := List.sublist_nil.1 h
      cases this
    have h1 := joinSp_length (w :: ws'') (by simp)
    have h2 := joinSp_length ws hne
    have hsum : ((w :: ws'').map List.length).sum ≤ (ws.map List.length).sum :=
      sublist_sum_le _ _ (h.map List.length)
    have hlen : (w :: ws'').length ≤ ws.length := h.length_le
    omega

/-- Splitting accounting: the pieces' total length plus the piece count is
one more than the string length (each separator ends exactly one piece). -/
theorem splitP_length_sum (p : Char → Bool) :
    ∀ cs : List Char,
      ((splitP p cs).map List.length).sum + (splitP p cs).length = cs.length + 1 := by
  intro cs
  induction cs with
  | nil => rfl
  | cons a cs ih =>
    rcases hs : splitP p cs with _ | ⟨w0, r⟩
    · exact absurd hs (splitP_ne_nil p cs)
    · rw [hs] at ih
      simp only [splitP, hs]
      by_cases hp : p a
      · rw [if_pos hp]
        simp only [List.map_cons, List.sum_cons, List.length_cons, List.length_nil] at ih ⊢
        omega
      · rw [if_neg hp]
        simp only [List.map_cons, List.sum_cons, List.length_cons, List.length_nil] at ih ⊢
        omega

/-- Re-joining the words of a string never exceeds the string's length. -/
theorem joinSp_wordsOfChars_length_le (cs : List Char) :
    (joinSp (wordsOfChars cs)).length ≤ cs.length := by
  rcases hw : wordsOfChars cs with _ | ⟨w, ws⟩
  · simp [joinSp]
  · have hsub : List.Sublist (wordsOfChars cs) (splitP isWS cs) := List.filter_sublist _
    have h1 := joinSp_length (wordsOfChars cs) (by rw [hw]; simp)
    have h2 := splitP_length_sum isWS cs
    have hsum : ((wordsOfChars cs).map List.length).sum
        ≤ ((splitP isWS cs).map List.length).sum :=
      sublist_sum_le _ _ (hsub.map List.length)
    have hlen : (wordsOfChars cs).length ≤ (splitP isWS cs).length := hsub.length_le
    rw [← hw]
    omega

/-- Words extracted from a string are non-empty. -/
theorem mem_wordsOfChars_ne_nil (cs : List Char) (w : Word)
    (h : w ∈ wordsOfChars cs) : w ≠ [] := by
  have := (List.mem_filter.1 h).2
  simpa using this

/-- Words extracted from a string contain no whitespace. -/
theorem mem_wordsOfChars_not_ws (cs : List Char) (w : Word)
    (h : w ∈ wordsOfChars cs) : ∀ c ∈ w, isWS c = false :=
  mem_splitP_not isWS cs w (List.mem_filter.1 h).1

/-- Splitting at a separator character prepends an empty piece. -/
theorem splitP_sep (p : Char → Bool) (c : Char) (cs : List Char) (hp : p c = true) :
    splitP p (c :: cs) = [] :: splitP p cs := by
  rcases hs : splitP p cs with _ | ⟨w0, r⟩
  · exact absurd hs (splitP_ne_nil p cs)
  · simp only [splitP, hs, if_pos hp]

/-- Splitting after a separator-free prefix extends the first piece. -/
theorem splitP_append_no_sep (p : Char → Bool) :
    ∀ (w cs : List Char), (∀ c ∈ w, p c = false) →
      ∀ (w0 : List Char) (r : List (List Char)), splitP p cs = w0 :: r →
      splitP p (w ++ cs) = (w ++ w0) :: r := by
  intro w
  induction w with
  | nil =>
    intro cs _ w0 r hs
    simpa using hs
  | cons a w ih =>
    intro cs hw w0 r hs
    have ha : p a = false := hw a (List.mem_cons_self _ _)
    have hrest := ih cs (fun c hc => hw c (List.mem_cons_of_mem _ hc)) w0 r hs
    rw [List.cons_append]
    simp only [splitP, hrest]
    rw [if_neg (by simp [ha])]
    rw [List.cons_append]

/-- Tokenizing a space-join of non-empty whitespace-free words recovers
exactly those words. -/
theorem wordsOfChars_joinSp : ∀ ws : List Word,
    (∀ w ∈ ws, w ≠ [] ∧ ∀ c ∈ w, isWS c = false) →
    wordsOfChars (joinSp ws) = ws := by
  intro ws
  induction ws with
  | nil => intro _; rfl
  | cons w ws ih =>
    intro h
    have hw := h w (List.mem_cons_self _ _)
    cases ws with
    | nil =>
      have hsp : splitP isWS (w ++ []) = (w ++ []) :: [] :=
        splitP_append_no_sep isWS w [] hw.2 [] [] rfl
      rw [List.append_nil] at hsp
      show (splitP isWS (joinSp [w])).filter (fun x => !x.isEmpty) = [w]
      have hjoin : joinSp [w] = w := rfl
      rw [hjoin, hsp]
      simp [hw.1]
    | cons w2 ws2 =>
      have hunf : joinSp (w :: w2 :: ws2) = w ++ ' ' :: joinSp (w2 :: ws2) := rfl
      have hsep : splitP isWS (' ' :: joinSp (w2 :: ws2))
          = [] :: splitP isWS (joinSp (w2 :: ws2)) :=
        splitP_sep isWS ' ' _ (by decide)
      have hsp : splitP isWS (w ++ ' ' :: joinSp (w2 :: ws2))
          = (w ++ []) :: splitP isWS (joinSp (w2 :: ws2)) :=
        splitP_append_no_sep isWS w _ hw.2 [] _ hsep
      rw [List.append_nil] at hsp
      show (splitP isWS (joinSp (w :: w2 :: ws2))).filter (fun x => !x.isEmpty)
          = w :: w2 :: ws2
      rw [hunf, hsp]
      have hih := ih (fun x hx => h x (List.mem_cons_of_mem _ hx))
      show (w :: splitP isWS (joinSp (w2 :: ws2))).filter (fun x => !x.isEmpty)
          = w :: w2 :: ws2
      rw [List.filter_cons_of_pos (by simpa using hw.1)]
      unfold wordsOfChars at hih
      rw [hih]

/-! ## The stage outputs are sublists of the stage inputs (word level) -/

/-- The adjacent-duplicate loop only drops words. -/
theorem adjacentKeep_sublist (prev : Word) (ws : List Word) :
    List.Sublist (adjacentKeep prev ws) ws := by
  induction ws generalizing prev with
  | nil => exact List.Sublist.refl _
  | cons w ws ih =>
    rw [adjacentKeep]
    by_cases h : lowerStr w = lowerStr prev
    · rw [if_pos h]
      exact (ih w).cons w
    · rw [if_neg h]
      exact (ih w).cons₂ w

/-- The adjacent-duplicate loop only drops words (whole stream). -/
theorem adjacentLoop_sublist (ws : List Word) : List.Sublist (adjacentLoop ws) ws := by
  cases ws with
  | nil => exact List.Sublist.refl _
  | cons w ws => exact (adjacentKeep_sublist w ws).cons₂ w

/-- The repeat-counting cursor never moves backwards. -/
theorem repeatScan_ge (words pattern : List Word) (L : Nat) :
    ∀ (fuel cnt ci : Nat), ci ≤ (repeatScan words pattern L cnt ci fuel).2 := by
  intro fuel
  induction fuel with
  | zero => intro cnt ci; exact le_refl _
  | succ fuel ih =>
    intro cnt ci
    rw [repeatScan]
    by_cases h : (decide (ci + L ≤ words.length)
        && blockSimilar pattern (sliceW words ci L) L) = true
    · rw [if_pos h]
      exact le_trans (Nat.le_add_right ci L) (ih _ _)
    · rw [if_neg h]

/-- Candidate lengths lie between `2` and `min 20 ⌊(len − i)/2⌋`. -/
theorem mem_candidateLengths (words : List Word) (i L : Nat)
    (h : L ∈ candidateLengths words i) :
    2 ≤ L ∧ L ≤ min 20 ((words.length - i) / 2) := by
  unfold candidateLengths at h
  rw [List.mem_reverse, List.mem_range'_1] at h
  omega

/-- A successful candidate returns the pattern at the cursor and a new cursor
position past the pattern. -/
theorem tryPattern_spec (words : List Word) (i L : Nat) (pat : List Word) (ci : Nat)
    (h : tryPattern words i L = some (pat, ci)) :
    pat = sliceW words i L ∧ i + L ≤ ci := by
  simp only [tryPattern] at h
  by_cases hlt : words.length ≤ i + L
  · rw [if_pos hlt] at h
    cases h
  · rw [if_neg hlt] at h
    by_cases h2 : 2 ≤ (repeatScan words (sliceW words i L) L 1 (i + L) words.length).1
    · rw [if_pos h2] at h
      have hp : sliceW words i L = pat
          ∧ (repeatScan words (sliceW words i L) L 1 (i + L) words.length).2 = ci := by
        have := Option.some.inj h
        exact Prod.mk.inj this
      refine ⟨hp.1.symm, ?_⟩
      rw [← hp.2]
      exact repeatScan_ge words _ L _ _ _
    · rw [if_neg h2] at h
      cases h

/-- A successful repeat search yields a pattern of length at least 2 starting
at the cursor, and a strictly advanced new cursor. -/
theorem findRepeat_spec (words : List Word) (i : Nat) (pat : List Word) (ci : Nat)
    (h : findRepeat words i = some (pat, ci)) :
    ∃ L, 2 ≤ L ∧ pat = sliceW words i L ∧ i + L ≤ ci := by
  unfold findRepeat at h
  obtain ⟨L, hmem, hL⟩ := List.exists_of_findSome?_eq_some h
  obtain ⟨hpat, hci⟩ := tryPattern_spec words i L pat ci hL
  exact ⟨L, (mem_candidateLengths words i L hmem).1, hpat, hci⟩

/-- The pattern loop emits a sublist of the remaining word stream. -/
theorem patternLoop_sublist (words : List Word) :
    ∀ (fuel i : Nat), List.Sublist (patternLoop words i fuel) (words.drop i) := by
  intro fuel
  induction fuel with
  | zero =>
    intro i
    exact List.nil_sublist _
  | succ fuel ih =>
    intro i
    rw [patternLoop]
    by_cases hi : i < words.length
    · rw [if_pos hi]
      rcases hfr : findRepeat words i with _ | ⟨pat, ci⟩
      · have hdrop : words.drop i = words.getD i [] :: words.drop (i + 1) := by
          rw [List.getD_eq_getElem _ _ hi]
          exact List.drop_eq_getElem_cons hi
        rw [hdrop]
        exact (ih (i + 1)).cons₂ _
      · obtain ⟨L, hL2, hpat, hci⟩ := findRepeat_spec words i pat ci hfr
        have hij : i ≤ ci := le_trans (Nat.le_add_right i L) hci
        have hsplit : words.drop i
            = (words.drop i).take (ci - i) ++ words.drop ci := by
          have h1 : (words.drop i).drop (ci - i) = words.drop ci := by
            rw [List.drop_drop]
            congr 1
            omega
          conv_lhs => rw [← List.take_append_drop (ci - i) (words.drop i)]
          rw [h1]
        rw [hsplit]
        have hLle : L ≤ ci - i := by omega
        have hpat_sub : List.Sublist pat ((words.drop i).take (ci - i)) := by
          rw [hpat]
          unfold sliceW
          have : (words.drop i).take L
              = ((words.drop i).take (ci - i)).take L := by
            rw [List.take_take]
            congr 1
            omega
          rw [this]
          exact List.take_sublist _ _
        exact hpat_sub.append (ih ci)
    · rw [if_neg hi]
      exact List.nil_sublist _

/-- C4 (amended): the pattern stage and the adjacent stage never grow the
token count or the character length (the sentence stage can, see the
counterexample). -/
theorem claim_C4_nongrowth_pattern_and_adjacent :
    (∀ text : List Char,
        tokenCount (removePatternRepeats text) ≤ tokenCount text
        ∧ (removePatternRepeats text).length ≤ text.length)
    ∧ (∀ text : List Char,
        tokenCount (removeAdjacentDuplicates text) ≤ tokenCount text
        ∧ (removeAdjacentDuplicates text).length ≤ text.length) := by
  constructor
  · intro text
    by_cases h4 : (wordsOfChars text).length < 4
    · have : removePatternRepeats text = text := by
        unfold removePatternRepeats
        rw [if_pos h4]
      rw [this]
      exact ⟨le_refl _, le_refl _⟩
    · have hdef : removePatternRepeats text
          = joinSp (patternLoop (wordsOfChars text) 0 (wordsOfChars text).length) := by
        unfold removePatternRepeats
        rw [if_neg h4]
      have hsub : List.Sublist
          (patternLoop (wordsOfChars text) 0 (wordsOfChars text).length)
          (wordsOfChars text) := by
        have := patternLoop_sublist (wordsOfChars text) (wordsOfChars text).length 0
        simpa using this
      constructor
      · rw [hdef]
        unfold tokenCount
        rw [wordsOfChars_joinSp _ (fun w hw =>
          ⟨mem_wordsOfChars_ne_nil text w (hsub.subset hw),
           mem_wordsOfChars_not_ws text w (hsub.subset hw)⟩)]
        exact hsub.length_le
      · rw [hdef]
        exact le_trans (joinSp_length_le_of_sublist _ _ hsub)
          (joinSp_wordsOfChars_length_le text)
  · intro text
    have hsub : List.Sublist (adjacentLoop (wordsOfChars text)) (wordsOfChars text) :=
      adjacentLoop_sublist _
    constructor
    · show tokenCount (joinSp (adjacentLoop (wordsOfChars text))) ≤ tokenCount text
      unfold tokenCount
      rw [wordsOfChars_joinSp _ (fun w hw =>
        ⟨mem_wordsOfChars_ne_nil text w (hsub.subset hw),
         mem_wordsOfChars_not_ws text w (hsub.subset hw)⟩)]
      exact hsub.length_le
    · show (joinSp (adjacentLoop (wordsOfChars text))).length ≤ text.length
      exact le_trans (joinSp_length_le_of_sublist _ _ hsub)
        (joinSp_wordsOfChars_length_le text)

/-! ## Full characterization of the pattern-repeat search -/

/-- The repeat-counting `while` loop, characterized: starting from cursor
`ci` it consumes exactly the maximal run of consecutive in-bounds `L`-blocks
whose positional match ratio against the pattern is at least `0.85`, adds
their number to the count, and leaves the cursor right after them. -/
theorem repeatScan_spec (words pattern : List Word) (L : Nat) (hL : 0 < L) :
    ∀ (fuel cnt ci : Nat), words.length < ci + fuel * L →
      ∃ n, repeatScan words pattern L cnt ci fuel = (cnt + n, ci + n * L)
        ∧ (∀ k, k < n → ci + k * L + L ≤ words.length
            ∧ (17 : ℚ)/20 ≤ (blockMatches pattern (sliceW words (ci + k * L) L) L : ℚ) / (L : ℚ))
        ∧ ¬ (ci + n * L + L ≤ words.length
            ∧ (17 : ℚ)/20 ≤ (blockMatches pattern (sliceW words (ci + n * L) L) L : ℚ) / (L : ℚ)) := by
  intro fuel
  induction fuel with
  | zero =>
    intro cnt ci hb
    simp only [Nat.zero_mul, Nat.add_zero] at hb
    refine ⟨0, by simp [repeatScan], ?_, ?_⟩
    · intro k hk
      omega
    · rintro ⟨h1, -⟩
      simp only [Nat.zero_mul, Nat.add_zero] at h1
      omega
  | succ fuel ih =>
    intro cnt ci hb
    have hb' : words.length < (ci + L) + fuel * L := by
      have hm : (fuel + 1) * L = fuel * L + L := by ring
      omega
    rw [repeatScan]
    by_cases hc : (decide (ci + L ≤ words.length)
        && blockSimilar pattern (sliceW words ci L) L) = true
    · rw [if_pos hc]
      rw [Bool.and_eq_true, decide_eq_true_eq] at hc
      obtain ⟨hb1, hb2⟩ := hc
      obtain ⟨n, hr, hall, hstop⟩ := ih (cnt + 1) (ci + L) hb'
      refine ⟨n + 1, ?_, ?_, ?_⟩
      · rw [hr]
        have h1 : cnt + 1 + n = cnt + (n + 1) := by omega
        have h2 : ci + L + n * L = ci + (n + 1) * L := by
          have hm : (n + 1) * L = n * L + L := by ring
          omega
        rw [h1, h2]
      · intro k hk
        cases k with
        | zero =>
          simp only [Nat.zero_mul, Nat.add_zero]
          refine ⟨hb1, ?_⟩
          rw [blockSimilar_eq_ratTest pattern (sliceW words ci L) L hL] at hb2
          exact of_decide_eq_true hb2
        | succ j =>
          have hj : j < n := by omega
          obtain ⟨ha1, ha2⟩ := hall j hj
          have hidx : ci + L + j * L = ci + (j + 1) * L := by
            have hm : (j + 1) * L = j * L + L := by ring
            omega
          rw [← hidx]
          exact ⟨ha1, ha2⟩
      · have hidx : ci + L + n * L = ci + (n + 1) * L := by
          have hm : (n + 1) * L = n * L + L := by ring
          omega
        rw [← hidx]
        exact hstop
    · rw [if_neg hc]
      refine ⟨0, by simp, ?_, ?_⟩
      · intro k hk
        omega
      · rintro ⟨h1, h2⟩
        simp only [Nat.zero_mul, Nat.add_zero] at h1 h2
        apply hc
        rw [Bool.and_eq_true, decide_eq_true_eq]
        refine ⟨h1, ?_⟩
        rw [blockSimilar_eq_ratTest pattern (sliceW words ci L) L hL]
        exact decide_eq_true h2

/-- Membership in the candidate-length list, solved. -/
theorem candidateLengths_mem_iff (words : List Word) (i L : Nat) :
    L ∈ candidateLengths words i ↔ 2 ≤ L ∧ L ≤ min 20 ((words.length - i) / 2) := by
  unfold candidateLengths
  rw [List.mem_reverse, List.mem_range'_1]
  omega

/-- A first-hit search over a strictly descending range finds the largest
argument with a value. -/
theorem findSome?_desc_range' {β : Type} (f : Nat → Option β) :
    ∀ (k s : Nat) (b : β), ((List.range' s k).reverse.findSome? f) = some b →
      ∃ L, s ≤ L ∧ L < s + k ∧ f L = some b
        ∧ ∀ L', L < L' → L' < s + k → f L' = none := by
  intro k
  induction k with
  | zero =>
    intro s b h
    cases h
  | succ k ih =>
    intro s b h
    rw [List.range'_concat, List.reverse_append] at h
    simp only [List.reverse_singleton, List.singleton_append, List.findSome?_cons,
      Nat.one_mul] at h
    rcases hf : f (s + k) with _ | b'
    · simp only [hf] at h
      obtain ⟨L, hs, hlt, hfl, hmax⟩ := ih s b h
      refine ⟨L, hs, by omega, hfl, ?_⟩
      intro L' hL' hL'lt
      by_cases he : L' = s + k
      · rw [he]
        exact hf
      · exact hmax L' hL' (by omega)
    · simp only [hf] at h
      refine ⟨s + k, by omega, by omega, ?_, ?_⟩
      · rw [hf]
        exact h
      · intro L' hL' hL'lt
        omega

/-- C6 (confirmed): the Pattern Repeat Eliminator, characterized against the
claim.  (i) streams shorter than 4 tokens are returned unchanged;
(ii) the block scan consumes exactly the maximal run of consecutive blocks
with match ratio ≥ 0.85 and reports their count and the cursor past them;
(iii) the search at a cursor fails iff no candidate length `L` with
`2 ≤ L ≤ min 20 ⌊(len − i)/2⌋` yields a repeat; (iv) on success the longest
qualifying candidate length wins (every longer candidate fails);
(v) a successful candidate means the pattern occurs at least twice and the
new cursor sits right after all matched repeats; (vi) the forward pass emits
the pattern once and jumps to the new cursor on success, else emits the
single token at the cursor and advances by one. -/
theorem claim_C6_pattern_eliminator :
    (∀ text : List Char, (wordsOfChars text).length < 4 →
        removePatternRepeats text = text)
    ∧ (∀ (words pattern : List Word) (L cnt ci fuel : Nat), 0 < L →
        words.length < ci + fuel * L →
        ∃ n, repeatScan words pattern L cnt ci fuel = (cnt + n, ci + n * L)
          ∧ (∀ k, k < n → ci + k * L + L ≤ words.length
              ∧ (17 : ℚ)/20
                ≤ (blockMatches pattern (sliceW words (ci + k * L) L) L : ℚ) / (L : ℚ))
          ∧ ¬ (ci + n * L + L ≤ words.length
              ∧ (17 : ℚ)/20
                ≤ (blockMatches pattern (sliceW words (ci + n * L) L) L : ℚ) / (L : ℚ)))
    ∧ (∀ (words : List Word) (i : Nat),
        findRepeat words i = none ↔
          ∀ L, 2 ≤ L → L ≤ min 20 ((words.length - i) / 2) →
            tryPattern words i L = none)
    ∧ (∀ (words : List Word) (i : Nat) (pat : List Word) (ci : Nat),
        findRepeat words i = some (pat, ci) →
          ∃ L, 2 ≤ L ∧ L ≤ min 20 ((words.length - i) / 2)
            ∧ tryPattern words i L = some (pat, ci)
            ∧ pat = sliceW words i L
            ∧ ∀ L', L < L' → L' ≤ min 20 ((words.length - i) / 2) →
                tryPattern words i L' = none)
    ∧ (∀ (words : List Word) (i L : Nat) (pat : List Word) (ci : Nat), 0 < L →
        tryPattern words i L = some (pat, ci) →
          ∃ n, 1 ≤ n ∧ ci = i + L + n * L ∧ pat = sliceW words i L)
    ∧ (∀ (words : List Word) (i fuel : Nat), i < words.length →
        patternLoop words i (fuel + 1)
          = match findRepeat words i with
            | some (pat, ci) => pat ++ patternLoop words ci fuel
            | none => words.getD i [] :: patternLoop words (i + 1) fuel) := by
  refine ⟨?_, ?_, ?_, ?_, ?_, ?_⟩
  · intro text h
    simp only [removePatternRepeats]
    rw [if_pos h]
  · intro words pattern L cnt ci fuel hL hb
    exact repeatScan_spec words pattern L hL fuel cnt ci hb
  · intro words i
    unfold findRepeat
    rw [List.findSome?_eq_none_iff]
    constructor
    · intro h L h2 hle
      exact h L ((candidateLengths_mem_iff words i L).2 ⟨h2, hle⟩)
    · intro h L hmem
      obtain ⟨h2, hle⟩ := (candidateLengths_mem_iff words i L).1 hmem
      exact h L h2 hle
  · intro words i pat ci h
    unfold findRepeat candidateLengths at h
    obtain ⟨L, hs, hlt, hf, hmax⟩ :=
      findSome?_desc_range' (tryPattern words i) _ 2 (pat, ci) h
    refine ⟨L, hs, by omega, hf, (tryPattern_spec words i L pat ci hf).1, ?_⟩
    intro L' hL' hL'le
    apply hmax L' hL'
    omega
  · intro words i L pat ci hL h
    simp only [tryPattern] at h
    by_cases hlt : words.length ≤ i + L
    · rw [if_pos hlt] at h
      cases h
    · rw [if_neg hlt] at h
      have hbound : words.length < (i + L) + words.length * L := by
        have h1 : words.length ≤ words.length * L := Nat.le_mul_of_pos_right _ hL
        omega
      obtain ⟨n, hr, -, -⟩ :=
        repeatScan_spec words (sliceW words i L) L hL words.length 1 (i + L) hbound
      simp only [hr] at h
      by_cases h2 : 2 ≤ 1 + n
      · rw [if_pos h2] at h
        obtain ⟨hp1, hp2⟩ := Prod.mk.inj (Option.some.inj h)
        exact ⟨n, by omega, hp2.symm, hp1.symm⟩
      · rw [if_neg h2] at h
        cases h
  · intro words i fuel hi
    rw [patternLoop]
    rw [if_pos hi]

/-- Witness for C6 at a concrete 3-token stream (returned unchanged). -/
theorem claim_C6_pattern_eliminator_witness :
    (wordsOfChars ("aa bb cc" : String).data).length < 4
    ∧ removePatternRepeats ("aa bb cc" : String).data = ("aa bb cc" : String).data :=
  ⟨by decide, claim_C6_pattern_eliminator.1 _ (by decide)⟩

end SubtitleService
